import Mathlib

/-!
# Verification of the Falcon functional core

Shallow embedding of the combinator library (`functional_ext.cpp`),
the `ItemArray` container (`itemarray.cpp`) and the `ItemList`
iterator registry (`itemlist.h`), with theorems settling the
specification claims about them.

Machine integers of the source (`int32`, `uint32`) are modelled as
`Int`/`Nat`; the source's index arithmetic never overflows in the
ranges the claims quantify over, so no wrap-around modelling is
needed.  Fallible operations return `Option`; a `none` models the
C++ `return false` / null-pointer failure paths, which in the source
occur before any mutation of the receiver.
-/

namespace Falcon

/--
Falcon `Item`: tagged dynamic value.  Aggregates (`arr`, `dict`)
carry an identity tag modelling the C++ object pointer, since the
source compares aggregates by identity (`first == second`) before
structural descent.  `fn` models a callable function object.
`range` models a Falcon range value (start, end, step, open flag),
used by `times`.
-/
inductive Item where
  | nil
  | int (n : Int)
  | arr (id : Nat) (elems : List Item)
  | dict (id : Nat) (pairs : List (Item × Item))
  | fn (id : Nat)
  | range (rstart rend rstep : Int) (ropen : Bool)
deriving Repr

/-- Falcon truth check (`Item::isTrue`): nil and zero are false,
empty containers are false, everything else is true. -/
def Item.isTrue : Item → Bool
  | .nil => false
  | .int n => n != 0
  | .arr _ elems => !elems.isEmpty
  | .dict _ pairs => !pairs.isEmpty
  | .fn _ => true
  | .range _ _ _ _ => true

/-- `Item::isCallable`: functions and arrays are callable. -/
def Item.isCallable : Item → Bool
  | .fn _ => true
  | .arr _ _ => true
  | _ => false

/-- `Item::isOrdinal`: integer items (numeric count for `times`). -/
def Item.isOrdinal : Item → Bool
  | .int _ => true
  | _ => false

/-- `Item::isRange`. -/
def Item.isRange : Item → Bool
  | .range _ _ _ _ => true
  | _ => false

/-- `Item::isNil`. -/
def Item.isNil : Item → Bool
  | .nil => true
  | _ => false

/-!
## `reduce` (claim C1)

`core_reduce` / `core_reduce_next` from `functional_ext.cpp`.
The handler `core_reduce_next` receives the last call's result in
register A and, while the position counter has not reached the end
of the origin array, queues the call `f(regA, origin[count])` and
increments the counter.  We embed the handler loop as a function
from (counter, register) to the final value, also counting how many
times the reductor `f` is invoked, so that the "never calls f"
clauses of the spec are expressible.
-/

/-- The `core_reduce_next` handler loop: starting at position
`count` with last result `regA`, fold the remaining elements,
returning the final value and the number of calls to `f` made. -/
def core_reduce_next (f : Item → Item → Item) (origin : List Item) :
    Nat → Item → Item × Nat
  | count, regA =>
    if h : count < origin.length then
      let p := core_reduce_next f origin (count + 1) (f regA (origin.get ⟨count, h⟩))
      (p.1, p.2 + 1)
    else
      (regA, 0)
termination_by count _ => origin.length - count

/-- `core_reduce`: entry point.  `init = some v` models the third
parameter being given.  Returns the result item and the total number
of calls to the reductor. -/
def core_reduce (f : Item → Item → Item) (origin : List Item)
    (init : Option Item) : Item × Nat :=
  match init with
  | some v =>
    match origin with
    | [] => (v, 0)
    | a0 :: _ =>
      -- first call: f(init, origin[0]); handler continues from 1
      let p := core_reduce_next f origin 1 (f v a0)
      (p.1, p.2 + 1)
  | none =>
    match origin with
    | [] => (.nil, 0)
    | [a0] => (a0, 0)
    | a0 :: a1 :: _ =>
      -- first call between the first and second elements; from 2
      let p := core_reduce_next f origin 2 (f a0 a1)
      (p.1, p.2 + 1)

/-- Integer addition on items, the `add` reductor of the spec's
examples. -/
def addItem : Item → Item → Item
  | .int a, .int b => .int (a + b)
  | _, _ => .nil

/-- The `core_reduce_next` handler loop is a left fold over the
remaining elements, calling `f` once per remaining element. -/
theorem core_reduce_next_eq (f : Item → Item → Item) (origin : List Item)
    (count : Nat) (regA : Item) :
    core_reduce_next f origin count regA =
      (List.foldl f regA (origin.drop count), origin.length - count) := by
  induction count, regA using core_reduce_next.induct f origin with
  | case1 count regA h ih =>
    rw [core_reduce_next]
    simp only [dif_pos h, List.get_eq_getElem] at ih ⊢
    rw [List.drop_eq_getElem_cons h, List.foldl_cons, ih]
    simp only [Prod.mk.injEq, true_and]
    omega
  | case2 count regA h =>
    rw [core_reduce_next]
    simp only [dif_neg h]
    rw [List.drop_eq_nil_of_le (by omega)]
    simp only [List.foldl_nil, Prod.mk.injEq]
    exact ⟨trivial, by omega⟩

/-- C1: `reduce(f, seq, init)` with `init` given performs a left fold
of `init` and then every element of `seq` in order (one call to `f`
per element); with no `init` it folds pairwise from the first two
elements; `reduce(f, [], init)` returns `init` and `reduce(f, [])`
returns nil, both with zero calls to `f`; `reduce(f, [x])` with no
`init` returns `x` with zero calls to `f`; and the spec's examples
`reduce(add,[1,2,3,4]) == 10` and `reduce(add,[1,2,3,4],-1) == 9`
hold. -/
theorem core_reduce_correct (f : Item → Item → Item) (seq : List Item)
    (init x a b : Item) (rest : List Item) :
    core_reduce f seq (some init) = (seq.foldl f init, seq.length)
    ∧ core_reduce f [] (some init) = (init, 0)
    ∧ core_reduce f [] none = (.nil, 0)
    ∧ core_reduce f [x] none = (x, 0)
    ∧ core_reduce f (a :: b :: rest) none = (rest.foldl f (f a b), rest.length + 1)
    ∧ core_reduce addItem [.int 1, .int 2, .int 3, .int 4] none = (.int 10, 3)
    ∧ core_reduce addItem [.int 1, .int 2, .int 3, .int 4] (some (.int (-1)))
        = (.int 9, 4) := by
  refine ⟨?_, rfl, rfl, rfl, ?_, ?_, ?_⟩
  · cases seq with
    | nil => rfl
    | cons a0 tl => simp [core_reduce, core_reduce_next_eq]
  · simp [core_reduce, core_reduce_next_eq]
  · simp only [core_reduce, core_reduce_next_eq]
    rfl
  · simp only [core_reduce, core_reduce_next_eq]
    rfl

/-!
## `all` (claim C2)

`core_all` / `core_all_next` from `functional_ext.cpp`.  The entry
point returns integer 0 outright for an empty sequence; otherwise it
functionally evaluates the elements left to right, truth-checking
register A after each evaluation and returning 0 at the first false
without touching later elements; it returns 1 only after the loop
runs off the end.  Elements are modelled as atoms that functionally
evaluate to themselves; the second component of the result counts
how many elements were functionally evaluated, which makes the
short-circuit clause of the claim observable.
-/

/-- The evaluation loop shared by `core_all` and its handler
`core_all_next`: result (1 or 0) plus the number of elements
evaluated. -/
def core_all_loop : List Item → Int × Nat
  | [] => (1, 0)
  | x :: rest =>
    if x.isTrue then
      let p := core_all_loop rest
      (p.1, p.2 + 1)
    else
      (0, 1)

/-- `core_all`: empty input returns 0 before any evaluation. -/
def core_all (seq : List Item) : Int × Nat :=
  if seq.length = 0 then (0, 0) else core_all_loop seq

theorem core_all_loop_isTrue (seq : List Item) :
    (core_all_loop seq).1 = 1 ↔ ∀ x ∈ seq, x.isTrue := by
  induction seq with
  | nil => simp [core_all_loop]
  | cons x rest ih =>
    by_cases hx : x.isTrue
    · simp [core_all_loop, hx, ih]
    · simp [core_all_loop, hx]

theorem core_all_loop_shortcircuit (pre : List Item) (x : Item)
    (post : List Item) (hx : x.isTrue = false)
    (hpre : ∀ y ∈ pre, y.isTrue) :
    core_all_loop (pre ++ x :: post) = (0, pre.length + 1) := by
  induction pre with
  | nil => simp [core_all_loop, hx]
  | cons y rest ih =>
    have hy : y.isTrue := hpre y (by simp)
    have := ih (fun z hz => hpre z (by simp [hz]))
    simp [core_all_loop, hy, this]

/-- C2: `all([])` is 0 (false) by explicit convention with nothing
evaluated; `all(seq)` is 1 (true) exactly when `seq` is non-empty and
every element evaluates true; as soon as an element evaluates false
the loop stops (elements after it are never evaluated) and 0 is
returned; and the spec's examples `all([1,2,3]) == true`,
`all([1,0,3]) == false` with the third element unevaluated hold. -/
theorem core_all_correct :
    core_all [] = (0, 0)
    ∧ (∀ seq : List Item,
        ((core_all seq).1 = 1 ↔ seq ≠ [] ∧ ∀ x ∈ seq, x.isTrue))
    ∧ (∀ (pre : List Item) (x : Item) (post : List Item),
        x.isTrue = false → (∀ y ∈ pre, y.isTrue) →
        core_all (pre ++ x :: post) = (0, pre.length + 1))
    ∧ core_all [.int 1, .int 2, .int 3] = (1, 3)
    ∧ core_all [.int 1, .int 0, .int 3] = (0, 2) := by
  refine ⟨rfl, ?_, ?_, rfl, rfl⟩
  · intro seq
    cases seq with
    | nil => simp [core_all]
    | cons x rest => simpa [core_all] using core_all_loop_isTrue (x :: rest)
  · intro pre x post hx hpre
    have h := core_all_loop_shortcircuit pre x post hx hpre
    have hne : (pre ++ x :: post).length ≠ 0 := by simp
    simp [core_all, hne, h]

/-- Witness for C2: the short-circuit clause applied at the spec's
example `all([1,0,3])`. -/
theorem core_all_correct_witness :
    core_all [.int 1, .int 0, .int 3] = (0, 2) :=
  core_all_correct.2.2.1 [.int 1] (.int 0) [.int 3] rfl
    (by intro y hy; simp at hy; simp [hy, Item.isTrue])

/-!
## `cascade` (claim C3)

`core_cascade` / `core_cascade_next` from `functional_ext.cpp`.
The oob flag of the C++ `Item` is modelled as an explicit wrapper
`OItem` around the payload.  Stage callables are modelled as
functions from an argument list to a result.  The handler keeps two
locals: the position counter and the last accepted (non-oob) result;
the latter starts as an oob-marked nil so that, until some stage
accepts, a declining stage causes the original parameters to be
replayed.
-/

/-- A Falcon item together with its out-of-band flag. -/
structure OItem where
  val : Item
  oob : Bool
deriving Repr

/-- Set the oob flag (mirrors `Item::setOob`/`resetOob`). -/
def OItem.setOob (x : OItem) (b : Bool) : OItem := ⟨x.val, b⟩

/-- `vm->local(1)->setOob()` applied to a fresh (nil) local. -/
def oobNil : OItem := ⟨.nil, true⟩

/-- The `core_cascade_next` handler loop.  At entry, `regA` holds the
result of the previous stage's call and `local1` the last accepted
value (or the initial oob nil). -/
def core_cascade_next (callables : List (List OItem → OItem))
    (initArgs : List OItem) : Nat → OItem → OItem → OItem
  | count, regA, local1 =>
    if h : count < callables.length then
      if regA.oob then
        -- not accepted: replay the initial parameters if nothing was
        -- accepted yet, else reuse the last accepted parameter
        if local1.oob then
          core_cascade_next callables initArgs (count + 1)
            ((callables.get ⟨count, h⟩) initArgs) local1
        else
          core_cascade_next callables initArgs (count + 1)
            ((callables.get ⟨count, h⟩) [local1]) local1
      else
        -- accepted: store regA in local1 and pass it on
        core_cascade_next callables initArgs (count + 1)
          ((callables.get ⟨count, h⟩) [regA]) regA
    else
      -- loop done: if the last result was not accepted, return the
      -- last accepted value with its oob flag reset
      if regA.oob then local1.setOob false else regA
termination_by count _ _ => callables.length - count

/-- `core_cascade`: entry point.  An empty callable list returns nil;
otherwise the initial parameters go to the first callable and the
handler continues from position 1 with the last-accepted local
initialized to oob nil. -/
def core_cascade (callables : List (List OItem → OItem))
    (args : List OItem) : OItem :=
  match callables with
  | [] => ⟨.nil, false⟩
  | f :: _ => core_cascade_next callables args 1 (f args) oobNil

/-- Modelled from the claim's words: the arguments are piped through
the first stage; each stage's result becomes the next stage's sole
argument; a declining (oob-returning) stage's result is discarded and
its unchanged input — the original arguments while no stage has
accepted yet, the last accepted value afterwards — is passed on; the
final result is the last accepted value (nil if no stage ever
accepted). -/
def cascade_spec (fns : List (List OItem → OItem)) (args : List OItem) :
    Option OItem → OItem
  | lastAcc =>
    match fns with
    | [] =>
      match lastAcc with
      | some v => v
      | none => ⟨.nil, false⟩
    | f :: rest =>
      let input := match lastAcc with
                   | some v => [v]
                   | none => args
      let r := f input
      if r.oob then cascade_spec rest args lastAcc
      else cascade_spec rest args (some r)

/-- Interpretation of the handler's register/local pair as the
"last accepted value" state of the specification. -/
def toLastAcc (regA local1 : OItem) : Option OItem :=
  if regA.oob then (if local1.oob then none else some local1)
  else some regA

/-- The `core_cascade_next` handler loop refines `cascade_spec`: as
long as the last-accepted local is either a genuinely accepted
(non-oob) value or the initial oob nil, the machine computes exactly
the specification's cascade. -/
theorem core_cascade_next_eq (callables : List (List OItem → OItem))
    (args : List OItem) :
    ∀ (count : Nat) (regA local1 : OItem),
      (local1.oob = true → local1 = oobNil) →
      core_cascade_next callables args count regA local1 =
        cascade_spec (callables.drop count) args (toLastAcc regA local1) := by
  intro count regA local1
  induction count, regA, local1 using core_cascade_next.induct callables args with
  | case1 count regA local1 h hA hL ih =>
    intro hinv
    rw [core_cascade_next]
    simp only [dif_pos h, if_pos hA, if_pos hL]
    rw [ih hinv, List.drop_eq_getElem_cons h]
    simp only [toLastAcc, if_pos hA, if_pos hL, List.get_eq_getElem]
    by_cases hr : (callables[count] args).oob
    · simp [cascade_spec, hr]
    · simp [cascade_spec, hr]
  | case2 count regA local1 h hA hL ih =>
    intro hinv
    rw [core_cascade_next]
    simp only [dif_pos h, if_pos hA, if_neg hL]
    rw [ih hinv, List.drop_eq_getElem_cons h]
    simp only [toLastAcc, if_pos hA, if_neg hL, List.get_eq_getElem]
    by_cases hr : (callables[count] [local1]).oob
    · simp [cascade_spec, hr, if_neg hL]
    · simp [cascade_spec, hr, if_neg hL]
  | case3 count regA local1 h hA ih =>
    intro _
    rw [core_cascade_next]
    simp only [dif_pos h, if_neg hA]
    rw [ih (fun hh => absurd hh hA), List.drop_eq_getElem_cons h]
    simp only [toLastAcc, if_neg hA, List.get_eq_getElem]
    by_cases hr : (callables[count] [regA]).oob
    · simp [cascade_spec, hr, if_neg hA]
    · simp [cascade_spec, hr, if_neg hA]
  | case4 count regA local1 h hA =>
    intro hinv
    rw [core_cascade_next]
    simp only [dif_neg h, if_pos hA]
    rw [List.drop_eq_nil_of_le (by omega)]
    simp only [toLastAcc, if_pos hA]
    by_cases hL : local1.oob
    · rw [hinv hL]
      simp [cascade_spec, oobNil, OItem.setOob]
    · cases local1 with
      | mk v b =>
        have hb : b = false := by
          simpa using hL
        subst hb
        simp [cascade_spec, OItem.setOob]
  | case5 count regA local1 h hA =>
    intro _
    rw [core_cascade_next]
    simp only [dif_neg h, if_neg hA]
    rw [List.drop_eq_nil_of_le (by omega)]
    simp [cascade_spec, toLastAcc, if_neg hA]

/-- The `square` stage of the spec's example: squares its first
argument and accepts. -/
def squareFn : List OItem → OItem
  | ⟨.int a, _⟩ :: _ => ⟨.int (a * a), false⟩
  | _ => ⟨.nil, false⟩

/-- The `sqrt` stage of the spec's example: integer square root of
its first argument (exact on the example's inputs) and accepts. -/
def sqrtFn : List OItem → OItem
  | ⟨.int a, _⟩ :: _ => ⟨.int (Int.ofNat (Nat.sqrt a.toNat)), false⟩
  | _ => ⟨.nil, false⟩

/-- C3: for a non-empty callable list, `cascade` computes exactly
the specification's pipeline: the arguments go to the first stage,
each stage's (accepted) result becomes the next stage's sole
argument, a declining (oob) stage's result is discarded and its
unchanged input — the original arguments while nothing has been
accepted, the last accepted value afterwards — is passed on, and the
final result is the last accepted value; in particular
`cascade([square, sqrt], -4) == 4`. -/
theorem core_cascade_correct (f : List OItem → OItem)
    (rest : List (List OItem → OItem)) (args : List OItem) :
    core_cascade (f :: rest) args = cascade_spec (f :: rest) args none
    ∧ core_cascade [squareFn, sqrtFn] [⟨.int (-4), false⟩]
        = ⟨.int 4, false⟩ := by
  have main : ∀ (g : List OItem → OItem) (gs : List (List OItem → OItem))
      (xs : List OItem),
      core_cascade (g :: gs) xs = cascade_spec (g :: gs) xs none := by
    intro g gs xs
    show core_cascade_next (g :: gs) xs 1 (g xs) oobNil = _
    rw [core_cascade_next_eq (g :: gs) xs 1 (g xs) oobNil (fun _ => rfl)]
    simp only [List.drop_one, List.tail_cons, toLastAcc, oobNil]
    by_cases hr : (g xs).oob
    · simp [cascade_spec, hr]
    · simp [cascade_spec, hr]
  refine ⟨main f rest args, ?_⟩
  rw [main squareFn [sqrtFn] [⟨.int (-4), false⟩]]
  norm_num [cascade_spec, squareFn, sqrtFn]
  rw [show Int.toNat 16 = 16 from rfl, show Nat.sqrt 16 = 4 by norm_num]
  rfl

/-!
## `ItemArray` range-taking operations (claims C4, C9, C10)

`itemarray.cpp`.  An `ItemArray` is modelled by the list of its
`m_size` live elements (capacity management does not affect the
claims).  Each fallible operation returns `Option`: `none` models
the C++ `return false` / null return, which in the source happens
before the receiver is touched, so a `none` result carries no
mutated array.  Negative positions are normalized by the source's
`pos = m_size + pos` pattern, embedded once as `normIdx`.
-/

/-- The source's negative-index normalization
(`if (pos < 0) pos = m_size + pos`). -/
def normIdx (len : Nat) (pos : Int) : Int :=
  if pos < 0 then (len : Int) + pos else pos

namespace ItemArray

/-- `ItemArray::insert(const Item&, int32)`: fails (no mutation) when
the normalized position is outside `[0, m_size]`. -/
def insertItem (a : List Item) (ndata : Item) (pos : Int) :
    Option (List Item) :=
  let p := normIdx a.length pos
  if p < 0 ∨ p > (a.length : Int) then none
  else some (a.take p.toNat ++ ndata :: a.drop p.toNat)

/-- `ItemArray::insert(const ItemArray&, int32)`: note the early
`return true` when `other` is empty, before any bounds check. -/
def insertArray (a other : List Item) (pos : Int) : Option (List Item) :=
  if other.length = 0 then some a
  else
    let p := normIdx a.length pos
    if p < 0 ∨ p > (a.length : Int) then none
    else some (a.take p.toNat ++ other ++ a.drop p.toNat)

/-- `ItemArray::remove(int32, int32)`: removes `[first, last)`; a
reversed pair removes `[last, first + 1)`.  `first` must normalize
into `[0, m_size)` and `last` into `[0, m_size]`. -/
def removeRange (a : List Item) (first last : Int) : Option (List Item) :=
  let f := normIdx a.length first
  if f < 0 ∨ f ≥ (a.length : Int) then none
  else
    let l := normIdx a.length last
    if l < 0 ∨ l > (a.length : Int) then none
    else
      let fl := if f > l then (l, f + 1) else (f, l)
      some (a.take fl.1.toNat ++ a.drop fl.2.toNat)

/-- `ItemArray::change(const ItemArray&, int32, int32)`:
splice-replaces `[begin, end)` (or the reversed range
`[end, begin + 1)`) with `other`'s contents. -/
def change (a other : List Item) (bgn fin : Int) : Option (List Item) :=
  let b := normIdx a.length bgn
  if b < 0 ∨ b > (a.length : Int) then none
  else
    let e := normIdx a.length fin
    if e < 0 ∨ e > (a.length : Int) then none
    else
      let be := if b > e then (e, b + 1) else (b, e)
      some (a.take be.1.toNat ++ other ++ a.drop be.2.toNat)

/-- `ItemArray::partition(int32, int32)`: extracts `[start, end)`
into a freshly allocated array; `end < start` produces the reversed
subsequence from `start` down to `end`; `start` must normalize into
`[0, m_size)` — so the empty array always fails — and `end` into
`[0, m_size]`; a failing call returns the null pointer (`none`). -/
def partition (a : List Item) (start fin : Int) : Option (List Item) :=
  let s := normIdx a.length start
  if s < 0 ∨ s ≥ (a.length : Int) then none
  else
    let e := normIdx a.length fin
    if e < 0 ∨ e > (a.length : Int) then none
    else
      if e < s then
        some (((a.drop e.toNat).take (s.toNat - e.toNat + 1)).reverse)
      else if e = s then some []
      else some ((a.drop s.toNat).take (e.toNat - s.toNat))

/-- Element positions of the receiver read by the `memmove` in
`ItemArray::remove(int32)`: the source moves `m_size - first`
elements starting from position `first + 1` (the guard skips the
move when `first` is the last position), so the positions read are
`first + 1 .. first + (m_size - first)`. -/
def removeOne_reads (size : Nat) (first : Int) : Option (List Nat) :=
  let f := normIdx size first
  if f < 0 ∨ f ≥ (size : Int) then none
  else if f < (size : Int) - 1 then
    some ((List.range (size - f.toNat)).map (fun i => f.toNat + 1 + i))
  else some []

end ItemArray

/-- Counterexample to C4 as stated: bulk insert of an *empty* array
at a position whose normalized value (5) is outside the valid bounds
`[0, 0]` of the empty receiver nevertheless returns success
(`some`), not the failure indicator, because the source returns
`true` for an empty `other` before any bounds check. -/
theorem insertArray_empty_oob_cex :
    ItemArray.insertArray ([] : List Item) [] 5 = some []
    ∧ normIdx ([] : List Item).length 5 > (([] : List Item).length : Int)
    ∧ ItemArray.insertArray ([] : List Item) [] 5 ≠ none := by
  refine ⟨rfl, by norm_num [normIdx], by simp [ItemArray.insertArray]⟩

/-- C4 (amended): every range-taking `ItemArray` operation whose
normalized position/range falls outside the valid bounds returns the
failure indicator without mutating the array — except that bulk
insert of an empty array returns success (and still performs no
mutation) regardless of the position.  (`none` models the C++
`return false` paths, which the source takes before touching the
receiver.) -/
theorem itemarray_range_ops_fail_safe (a other : List Item) (v : Item)
    (pos first last bgn fin : Int) :
    ((normIdx a.length pos < 0 ∨ normIdx a.length pos > (a.length : Int)) →
      ItemArray.insertItem a v pos = none)
    ∧ (other ≠ [] →
        (normIdx a.length pos < 0 ∨ normIdx a.length pos > (a.length : Int)) →
        ItemArray.insertArray a other pos = none)
    ∧ ((normIdx a.length first < 0 ∨ normIdx a.length first ≥ (a.length : Int)
        ∨ normIdx a.length last < 0 ∨ normIdx a.length last > (a.length : Int)) →
        ItemArray.removeRange a first last = none)
    ∧ ((normIdx a.length bgn < 0 ∨ normIdx a.length bgn > (a.length : Int)
        ∨ normIdx a.length fin < 0 ∨ normIdx a.length fin > (a.length : Int)) →
        ItemArray.change a other bgn fin = none)
    ∧ ItemArray.insertArray a [] pos = some a := by
  refine ⟨?_, ?_, ?_, ?_, ?_⟩
  · intro h
    simp only [ItemArray.insertItem]
    rw [if_pos h]
  · intro hne h
    have hlen : other.length ≠ 0 := by simpa using hne
    simp only [ItemArray.insertArray]
    rw [if_neg hlen, if_pos h]
  · intro h
    simp only [ItemArray.removeRange]
    rcases h with h | h | h | h
    · rw [if_pos (Or.inl h)]
    · rw [if_pos (Or.inr h)]
    · by_cases hf : normIdx a.length first < 0 ∨ normIdx a.length first ≥ (a.length : Int)
      · rw [if_pos hf]
      · rw [if_neg hf, if_pos (Or.inl h)]
    · by_cases hf : normIdx a.length first < 0 ∨ normIdx a.length first ≥ (a.length : Int)
      · rw [if_pos hf]
      · rw [if_neg hf, if_pos (Or.inr h)]
  · intro h
    simp only [ItemArray.change]
    rcases h with h | h | h | h
    · rw [if_pos (Or.inl h)]
    · rw [if_pos (Or.inr h)]
    · by_cases hb : normIdx a.length bgn < 0 ∨ normIdx a.length bgn > (a.length : Int)
      · rw [if_pos hb]
      · rw [if_neg hb, if_pos (Or.inl h)]
    · by_cases hb : normIdx a.length bgn < 0 ∨ normIdx a.length bgn > (a.length : Int)
      · rw [if_pos hb]
      · rw [if_neg hb, if_pos (Or.inr h)]
  · simp [ItemArray.insertArray]

/-- Witness for the amended C4: `remove(3, 0)` on a one-element
array fails (normalized `first` = 3 is outside `[0, 1)`). -/
theorem itemarray_range_ops_fail_safe_witness :
    (normIdx [Item.int 7].length 3 ≥ (([Item.int 7] : List Item).length : Int))
    ∧ ItemArray.removeRange [Item.int 7] 3 0 = none := by
  refine ⟨by norm_num [normIdx], ?_⟩
  exact (itemarray_range_ops_fail_safe [Item.int 7] [] Item.nil 0 3 0 0 0).2.2.1
    (Or.inr (Or.inl (by norm_num [normIdx])))

/-- Counterexample to C9 as stated: on the empty array,
`partition(A, 0, length(A))` returns the null pointer (failure), not
a fresh empty array, because `start = 0` fails the
`start >= m_size` bound when `m_size = 0`. -/
theorem partition_empty_cex :
    ItemArray.partition ([] : List Item) 0 0 = none := by
  simp [ItemArray.partition, normIdx]

/-- C9 (amended): for every *non-empty* array `A`,
`partition(A, 0, length(A))` returns a fresh array with the same
contents in the same order as `A`; on the empty array the call
returns the null failure indicator instead. -/
theorem partition_full_copy (x : Item) (rest : List Item) :
    ItemArray.partition (x :: rest) 0 ((x :: rest).length : Int)
      = some (x :: rest)
    ∧ ItemArray.partition ([] : List Item) 0 (([] : List Item).length : Int)
      = none := by
  constructor
  · simp only [ItemArray.partition, normIdx, List.length_cons]
    norm_num
    have h : ¬((rest.length : Int) + 1 < 0) := by omega
    simp only [if_neg h]
    have h0 : ¬((rest.length : Int) + 1 = 0) := by omega
    simp only [if_neg h0]
    have ht : ((rest.length : Int) + 1).toNat = rest.length + 1 := by omega
    rw [ht]
    refine ⟨⟨by omega, le_refl _⟩, ?_⟩
    simp
  · simp [ItemArray.partition, normIdx]

/-- C10 is refuted by the code: on an array of length 2,
`remove(0)` performs `memmove(m_data, m_data + 1, esize(2))`,
reading element positions 1 and 2 — and position 2 is the position
one past the logical end of the array, outside `[0, L)`.  (The
sibling `remove(first, last)` moves `m_size - last` elements; the
one-argument form should move `m_size - first - 1`.) -/
theorem removeOne_reads_past_end :
    ItemArray.removeOne_reads 2 0 = some [1, 2]
    ∧ (2 : Nat) ∈ [1, 2]
    ∧ ¬((2 : Nat) < 2) := by
  refine ⟨?_, by simp, by omega⟩
  simp [ItemArray.removeOne_reads, normIdx, List.range_succ]

/-!
## `eq` / `internal_eq` (claim C6)

`internal_eq` from `functional_ext.cpp`.  The function first tests
scalar equality/identity (`first == second ||
vm->compareItems(first, second) == 0`; the external ordering
authority equates aggregates only by identity), then descends
structurally into arrays (elementwise, with a correctly advancing
`for` loop) and dictionaries.  The dictionary branch iterates with
`DictIterator`s — but the loop body never calls `next()` on either
iterator, and on every path out of the loop it executes
`delete d1; delete d2;`, destroying the argument dictionaries.

The embedding is fuel-indexed: one unit of fuel is consumed per
recursive call and per loop iteration, and `none` means the
computation has not finished within the given fuel — so
"`internal_eq` diverges on this input" is "for every fuel the result
is `none`".  The result, when some, is the boolean answer paired
with a flag recording whether any `delete` of an argument dictionary
was executed.
-/

/-- Scalar equality/identity test modelling
`first == second || vm->compareItems(first, second) == 0`:
value equality for scalars, object identity for aggregates. -/
def itemIdEq : Item → Item → Bool
  | .nil, .nil => true
  | .int a, .int b => a == b
  | .arr i _, .arr j _ => i == j
  | .dict i _, .dict j _ => i == j
  | .fn i, .fn j => i == j
  | .range a b c d, .range a' b' c' d' =>
      a == a' && b == b' && c == c' && d == d'
  | _, _ => false

mutual

/-- `internal_eq`, fuel-indexed.  Result: `(answer, destroyed)`
where `destroyed` records execution of `delete d1; delete d2` on
argument dictionaries; `none` = not finished within the fuel. -/
def internal_eq : Nat → Item → Item → Option (Bool × Bool)
  | 0, _, _ => none
  | n + 1, a, b =>
    if itemIdEq a b then some (true, false)
    else
      match a, b with
      | .arr _ xs, .arr _ ys =>
        if xs.length ≠ ys.length then some (false, false)
        else internal_eq_arr n xs ys
      | .dict _ ps, .dict _ qs =>
        if ps.length ≠ qs.length then some (false, false)
        else internal_eq_dict n ps qs
      | _, _ => some (false, false)

/-- The array branch's `for` loop (this one advances correctly). -/
def internal_eq_arr : Nat → List Item → List Item → Option (Bool × Bool)
  | 0, _, _ => none
  | _ + 1, [], _ => some (true, false)
  | _ + 1, _ :: _, [] => some (false, false)
  | n + 1, x :: xs, y :: ys =>
    match internal_eq n x y with
    | none => none
    | some (false, d) => some (false, d)
    | some (true, d) =>
      match internal_eq_arr n xs ys with
      | none => none
      | some (r, d') => some (r, d || d')

/-- The dictionary branch's `while( di1->isValid() )` loop.  The
iterators start at the first pair and are never advanced: when the
first key/value pair of both dictionaries compares equal, the loop
repeats with the very same state.  Every exit path deletes the two
argument dictionaries. -/
def internal_eq_dict : Nat → List (Item × Item) → List (Item × Item) →
    Option (Bool × Bool)
  | 0, _, _ => none
  | _ + 1, [], _ => some (true, true)
  | _ + 1, _ :: _, [] => some (false, true)
  | n + 1, (k1, v1) :: ps, (k2, v2) :: qs =>
    match internal_eq n k1 k2 with
    | none => none
    | some (false, _) => some (false, true)
    | some (true, _) =>
      match internal_eq n v1 v2 with
      | none => none
      | some (false, _) => some (false, true)
      | some (true, _) =>
        -- di1/di2 are not advanced: loop again on the same pairs
        internal_eq_dict n ((k1, v1) :: ps) ((k2, v2) :: qs)

end

/-- On two distinct dictionaries both equal to `{1 => 2}`, the
dictionary loop never terminates, whatever the fuel. -/
theorem internal_eq_dict_diverges (n : Nat) :
    internal_eq_dict n [(Item.int 1, Item.int 2)]
      [(Item.int 1, Item.int 2)] = none := by
  induction n with
  | zero => rfl
  | succ m ih =>
    cases m with
    | zero => rfl
    | succ k =>
      rw [internal_eq_dict]
      rw [show internal_eq (k + 1) (Item.int 1) (Item.int 1)
            = some (true, false) by simp [internal_eq, itemIdEq]]
      rw [show internal_eq (k + 1) (Item.int 2) (Item.int 2)
            = some (true, false) by simp [internal_eq, itemIdEq]]
      exact ih

/-- C6 is refuted by the code (the claim states the intended
behavior).  First conjunct: on the acyclic dictionaries
`d1 = {1 => 2}` and `d2 = {1 => 2}` (distinct objects), `eq(d1,d2)`
never terminates — the dictionary comparison loop never advances its
iterators, so for every fuel bound the computation is unfinished.
Second conjunct: on two distinct empty dictionaries the comparison
does return true, but only after executing `delete d1; delete d2`,
destroying its arguments (`destroyed` flag set). -/
theorem internal_eq_dict_bug :
    (∀ n : Nat, internal_eq n (Item.dict 0 [(Item.int 1, Item.int 2)])
        (Item.dict 1 [(Item.int 1, Item.int 2)]) = none)
    ∧ internal_eq 3 (Item.dict 0 []) (Item.dict 1 [])
        = some (true, true) := by
  constructor
  · intro n
    cases n with
    | zero => rfl
    | succ m =>
      rw [internal_eq]
      simpa [itemIdEq] using internal_eq_dict_diverges m
  · rfl

/-!
## `times` (claim C5)

`core_times` / `core_times_next` from `functional_ext.cpp`.  The
entry point validates the shape of its three direct parameters
(count/range, variable, sequence) and raises `ParamError`
synchronously if they are wrong; it then either finishes trivially
(empty loop) or installs `core_times_next` and suspends.  The
handler drives the loop; notably, the *callability of each sequence
element* is only checked inside the handler, which raises the
"uncallable" `ParamError` from the continuation, after the initial
call has already suspended.
-/

/-- `Item::forceInteger` (non-numeric items coerce to 0). -/
def Item.forceInteger : Item → Int
  | .int n => n
  | _ => 0

/-- `Item::isArray`. -/
def Item.isArray : Item → Bool
  | .arr _ _ => true
  | _ => false

/-- Locals of a suspended `times` invocation: local 0 holds a range
item (start, end, step) and local 1 the position in the sequence. -/
structure TimesLocals where
  rstart : Int
  rend : Int
  rstep : Int
  itemID : Nat
deriving Repr

/-- Outcome of the initial `core_times` call. -/
inductive TimesEntry where
  | error                           -- ParamError raised synchronously
  | done (ret : Int)                -- returned without suspending
  | suspend (locals : TimesLocals)  -- handler installed, A set to nil
deriving Repr

/-- Outcome of one `core_times_next` handler activation. -/
inductive TimesStep where
  | error                           -- ParamError raised from the handler
  | done (ret : Int)
  | call (target : Item) (pushed : List Item) (locals : TimesLocals)
      (sequence : List Item)
deriving Repr

/-- The argument-shape validation at the top of `core_times`
(parameter signature `"N|R, $|Nil|N, A"`). -/
def times_valid_shape (i_count i_var i_sequence : Option Item)
    (varByRef : Bool) : Bool :=
  match i_count, i_var, i_sequence with
  | some c, some v, some s =>
    (c.isRange || c.isOrdinal) && (varByRef || v.isNil || v.isOrdinal)
      && s.isArray
  | _, _, _ => false

/-- The trivial-loop check of `core_times`: if the range is already
exhausted (or inconsistent with the step) or the sequence is empty,
return `start` without suspending; otherwise install the handler
with local 0 = the range and local 1 = 0. -/
def core_times_start (start e step : Int) (seq : List Item) : TimesEntry :=
  if start = e
     ∨ (start < e ∧ (step < 0 ∨ start + step > e))
     ∨ (start > e ∧ (step > 0 ∨ start + step < e))
     ∨ seq.length = 0 then
    .done start
  else
    .suspend ⟨start, e, step, 0⟩

/-- `core_times`: synchronous validation, then range extraction and
the trivial-loop check. -/
def core_times (i_count i_var i_sequence : Option Item)
    (varByRef : Bool) : TimesEntry :=
  if ¬times_valid_shape i_count i_var i_sequence varByRef then .error
  else
    match i_count, i_sequence with
    | some c, some (.arr _ seq) =>
      match c with
      | .range s e st op =>
        if op then .error  -- "open range" ParamError, also synchronous
        else
          let step := if st = 0 then (if s > e then -1 else 1) else st
          core_times_start s e step seq
      | c =>
        let e := c.forceInteger
        core_times_start 0 e (if e < 0 then -1 else 1) seq
    | _, _ => .error  -- unreachable: the shape check requires an array

/-- `regA.isOob() && regA.isInteger() && regA.asInteger() == n`. -/
def OItem.isOobInt (x : OItem) (n : Int) : Bool :=
  x.oob && (match x.val with | .int m => m == n | _ => false)

/-- `core_times_next`: one activation of the return handler.  The
element to run is fetched and *only here* checked for callability,
raising `ParamError` ("uncallable") from the continuation if it is
not. -/
def core_times_next (varByRef : Bool) (var : Item) (sequence : List Item)
    (locals : TimesLocals) (regA : OItem) : TimesStep :=
  -- Continue or items terminated?
  let reset := locals.itemID == sequence.length || regA.isOobInt 1
  let start := if reset then locals.rstart + locals.rstep else locals.rstart
  let currentItemID := if reset then 0 else locals.itemID
  -- Break or loop terminated?
  if (locals.rstep > 0 ∧ start ≥ locals.rend)
     ∨ (locals.rstep < 0 ∧ start < locals.rend)
     ∨ regA.isOobInt 0 then
    .done start
  else
    let current := sequence.getD currentItemID .nil
    let locals' : TimesLocals := ⟨start, locals.rend, locals.rstep,
      currentItemID + 1⟩
    if ¬current.isCallable then .error
    else if ¬varByRef then
      match current with
      | .arr aid elems =>
        let varID := var.forceInteger
        if varID ≤ 0 then
          -- explode the sigma and append the loop index
          .call (elems.getD 0 .nil) (elems.drop 1 ++ [.int start]) locals'
            sequence
        else if (elems.length : Int) > varID then
          -- mangle the element at position varID inside the sigma
          let elems' := elems.set varID.toNat (.int start)
          .call (.arr aid elems') [] locals'
            (sequence.set currentItemID (.arr aid elems'))
        else
          .call current [] locals' sequence
      | _ => .call current [.int start] locals' sequence
    else
      .call current [] locals' sequence

/-- Counterexample to C5 as stated: `times(1, nil, [42])` passes the
synchronous shape validation and suspends without error, and the
very first activation of its continuation handler — not the initial
call — raises the invalid-argument ("uncallable") `ParamError`,
because the callability of sequence elements is only checked when
the element is reached. -/
theorem core_times_lazy_error_cex :
    core_times (some (.int 1)) (some .nil) (some (.arr 0 [.int 42])) false
      = .suspend ⟨0, 1, 1, 0⟩
    ∧ core_times_next false .nil [.int 42] ⟨0, 1, 1, 0⟩ ⟨.nil, false⟩
      = .error := by
  constructor
  · rfl
  · rfl

/-!
Entry-point validation of `map` and `cascade`, for the same claim.
`core_map` raises `ParamError` synchronously unless parameter 0 is
callable and parameter 1 is an array; its handler `core_map_next`
contains no error path at all, so `map` defers no check.
`core_cascade` raises `ParamError` synchronously unless parameter 0
is an array; it also checks the callability of the *first* stage
synchronously (`callFrame` failing in the initial call raises
`e_non_callable` before any suspension), while each later stage's
callability is checked by `core_cascade_next` when that stage is
reached, raising `e_non_callable` from the handler
(the accept/decline bookkeeping of the handler is embedded in full
for claim C3; here only its call-target step matters).
-/

/-- The argument-shape validation at the top of `core_map`
(parameter signature `"C,A"`, shared by `dolist`, `xmap` and
`filter`). -/
def map_valid_shape (callable i_origin : Option Item) : Bool :=
  match callable, i_origin with
  | some c, some o => c.isCallable && o.isArray
  | _, _ => false

/-- Outcome of the initial `core_map` call. -/
inductive MapEntry where
  | error                -- ParamError raised synchronously
  | done (mapped : List Item)  -- empty origin: fresh empty result
  | suspend (firstArg : Item)  -- handler installed, f(origin[0]) queued
deriving Repr

/-- `core_map`: synchronous shape validation, then either the empty
result or suspension with the first element's call queued. -/
def core_map (callable i_origin : Option Item) : MapEntry :=
  if ¬map_valid_shape callable i_origin then .error
  else
    match i_origin with
    | some (.arr _ origin) =>
      match origin with
      | [] => .done []
      | a0 :: _ => .suspend a0
    | _ => .error  -- unreachable: the shape check requires an array

/-- The argument-shape validation at the top of `core_cascade`
(parameter signature `"A,..."`). -/
def cascade_valid_shape (i_callables : Option Item) : Bool :=
  match i_callables with
  | some c => c.isArray
  | none => false

/-- Outcome of the initial `core_cascade` call. -/
inductive CascadeEntry where
  | error            -- ParamError / e_non_callable raised synchronously
  | done             -- empty callable list: nil returned
  | call (target : Item)  -- handler installed, first stage queued
deriving Repr

/-- `core_cascade`'s entry: synchronous shape validation, nil for an
empty list, and a synchronous `e_non_callable` if `callFrame` on the
first stage fails in the initial call. -/
def core_cascade_entry (i_callables : Option Item) : CascadeEntry :=
  if ¬cascade_valid_shape i_callables then .error
  else
    match i_callables with
    | some (.arr _ callables) =>
      match callables with
      | [] => .done
      | c0 :: _ => if ¬c0.isCallable then .error else .call c0
    | _ => .error  -- unreachable: the shape check requires an array

/-- Outcome of one `core_cascade_next` activation, projected onto
its call-target step (`functional_ext.cpp` lines 1576-1583): the
stage at the counter is fetched and only then checked for
callability, raising `e_non_callable` from the handler. -/
inductive CascadeStep where
  | done
  | error            -- e_non_callable raised from the handler
  | call (target : Item)
deriving Repr

/-- The call-target step of `core_cascade_next`: when stages remain,
`callFrame(callables->at(count), pc)` fails — raising
`e_non_callable` from the continuation handler — iff the stage item
is not callable. -/
def core_cascade_next_target (callables : List Item) (count : Nat) :
    CascadeStep :=
  if h : count < callables.length then
    let target := callables.get ⟨count, h⟩
    if ¬target.isCallable then .error else .call target
  else .done

/-- C5 (amended): every combinator validates the arity/type/shape of
its *direct* arguments synchronously — whenever the documented shape
check of `times` (`"N|R, $|Nil|N, A"`), `map` (`"C,A"`) or `cascade`
(`"A,..."`) fails, the invalid-argument error is raised from the
initial call, before any suspension or mutation; the callability of
the individual elements of a callable sequence, however, is checked
only when the element is reached, so `times` and `cascade` raise
that invalid-argument error from their continuation handlers (last
two conjuncts: cascade accepts `[fn, 42]` at entry because stage 0
is callable, and only the handler activation that reaches stage 1
errors). -/
theorem combinators_sync_shape_validation
    (i_count i_var i_sequence : Option Item) (varByRef : Bool)
    (callable origin i_callables : Option Item)
    (hT : times_valid_shape i_count i_var i_sequence varByRef = false)
    (hM : map_valid_shape callable origin = false)
    (hC : cascade_valid_shape i_callables = false) :
    core_times i_count i_var i_sequence varByRef = .error
    ∧ core_map callable origin = .error
    ∧ core_cascade_entry i_callables = .error
    ∧ core_times_next false .nil [.int 42] ⟨0, 1, 1, 0⟩ ⟨.nil, false⟩
        = .error
    ∧ core_cascade_entry (some (.arr 7 [.fn 0, .int 42])) = .call (.fn 0)
    ∧ core_cascade_next_target [.fn 0, .int 42] 1 = .error := by
  refine ⟨?_, ?_, ?_, rfl, rfl, rfl⟩
  · simp [core_times, hT]
  · simp [core_map, hM]
  · simp [core_cascade_entry, hC]

/-- Witness for the amended C5: an array as `times`'s count, an
integer as `map`'s callable and an integer as `cascade`'s list all
fail their shape checks and error synchronously from the initial
call. -/
theorem combinators_sync_shape_validation_witness :
    times_valid_shape (some (.arr 0 [])) (some .nil) (some (.arr 1 []))
      false = false
    ∧ map_valid_shape (some (.int 3)) (some (.arr 0 [])) = false
    ∧ cascade_valid_shape (some (.int 5)) = false
    ∧ core_times (some (.arr 0 [])) (some .nil) (some (.arr 1 [])) false
      = .error
    ∧ core_map (some (.int 3)) (some (.arr 0 [])) = .error
    ∧ core_cascade_entry (some (.int 5)) = .error := by
  have h := combinators_sync_shape_validation (some (.arr 0 []))
    (some .nil) (some (.arr 1 [])) false (some (.int 3))
    (some (.arr 0 [])) (some (.int 5)) rfl rfl rfl
  exact ⟨rfl, rfl, rfl, h.1, h.2.1, h.2.2.1⟩

/-!
## `ItemList` erase and the iterator registry (claim C7)

Only the header `itemlist.h` is in the tree; the bodies of
`ItemList::erase` and `notifyDeletion` are not.  The list and its
registry are therefore modelled from the spec: the list state is the
chain of (distinct) node identities plus the registry of live
iterators, each iterator being either positioned on a node or
invalid; `erase(n)` unlinks `n` and, atomically with the unlink,
repositions every registered iterator positioned on `n` to `n`'s
successor, or invalidates it when `n` was the tail.
-/

/-- Modelled from the spec: the state of an `ItemList` — the chain
of node identities plus the registry of live iterators (`some id` =
positioned on node `id`, `none` = invalidated). -/
structure MItemList where
  nodes : List Nat
  iters : List (Option Nat)

/-- Modelled from the spec: the successor of node `n` in the chain
(`none` when `n` is the tail or absent). -/
def listSucc : List Nat → Nat → Option Nat
  | [], _ => none
  | x :: rest, n => if x = n then rest.head? else listSucc rest n

/-- Modelled from the spec: `ItemList::erase(n)` together with
`notifyDeletion` — unlink `n` and reposition every registered
iterator positioned on `n` to `n`'s successor (or invalidate it when
`n` has none), atomically with the erase. -/
def eraseNode (s : MItemList) (n : Nat) : MItemList :=
  { nodes := s.nodes.erase n
    iters := s.iters.map
      (fun p => if p = some n then listSucc s.nodes n else p) }

theorem listSucc_ne_self (l : List Nat) (hl : l.Nodup) (n : Nat) :
    listSucc l n ≠ some n := by
  induction l with
  | nil => simp [listSucc]
  | cons x rest ih =>
    simp only [listSucc]
    by_cases hx : x = n
    · subst hx
      rw [if_pos rfl]
      cases rest with
      | nil => simp
      | cons r rs =>
        intro hr
        simp only [List.head?_cons, Option.some.injEq] at hr
        subst hr
        simp at hl
    · rw [if_neg hx]
      exact ih hl.of_cons

theorem listSucc_tail (front : List Nat) (n : Nat) (hn : n ∉ front) :
    listSucc (front ++ [n]) n = none := by
  induction front with
  | nil => simp [listSucc]
  | cons x xs ih =>
    have hx : x ≠ n := by
      intro h
      exact hn (by simp [h])
    simp only [List.cons_append, listSucc, if_neg hx]
    exact ih (fun h => hn (by simp [h]))

/-- C7 (spec-modelled, `itemlist.cpp` not in the tree): erasing node
`n` while any number of live registered iterators sit on it (1)
repositions each of those iterators to `n`'s successor, (2) leaves
every other iterator unchanged, (3) leaves no iterator positioned on
the erased node, (4) yields the invalid position when `n` was the
tail, and (5) removes `n` from the chain — all in the single atomic
`eraseNode` step. -/
theorem itemlist_erase_iterators (s : MItemList) (n : Nat)
    (hnodup : s.nodes.Nodup) :
    (∀ i : Nat, s.iters[i]? = some (some n) →
        (eraseNode s n).iters[i]? = some (listSucc s.nodes n))
    ∧ (∀ (i : Nat) (p : Option Nat), s.iters[i]? = some p →
        p ≠ some n → (eraseNode s n).iters[i]? = some p)
    ∧ (∀ (i : Nat) (p : Option Nat), (eraseNode s n).iters[i]? = some p →
        p ≠ some n)
    ∧ (∀ front : List Nat, s.nodes = front ++ [n] →
        listSucc s.nodes n = none)
    ∧ n ∉ (eraseNode s n).nodes := by
  refine ⟨?_, ?_, ?_, ?_, ?_⟩
  · intro i hi
    simp only [eraseNode, List.getElem?_map, hi, Option.map_some]
    simp
  · intro i p hi hp
    simp only [eraseNode, List.getElem?_map, hi, Option.map_some']
    rw [if_neg hp]
  · intro i p hi
    simp only [eraseNode, List.getElem?_map] at hi
    cases hq : s.iters[i]? with
    | none =>
      rw [hq] at hi
      exact absurd hi (by simp)
    | some q =>
      rw [hq] at hi
      simp only [Option.map_some', Option.some.injEq] at hi
      subst hi
      by_cases hqn : q = some n
      · rw [if_pos hqn]
        exact listSucc_ne_self s.nodes hnodup n
      · rw [if_neg hqn]
        exact hqn
  · intro front hfront
    have hn : n ∉ front := by
      rw [hfront] at hnodup
      have := List.disjoint_of_nodup_append hnodup
      intro hmem
      exact this hmem (by simp)
    rw [hfront]
    exact listSucc_tail front n hn
  · simp only [eraseNode]
    intro hmem
    rcases (List.Nodup.mem_erase_iff hnodup).mp hmem with ⟨hne, _⟩
    exact hne rfl

/-- Witness for C7: erasing node 2 from the chain `[1, 2, 3]` with
two live iterators on nodes 2 and 1 repositions the first iterator
to node 3 (the successor) and leaves the second untouched. -/
theorem itemlist_erase_iterators_witness :
    ([1, 2, 3] : List Nat).Nodup
    ∧ (eraseNode ⟨[1, 2, 3], [some 2, some 1]⟩ 2).iters[0]?
        = some (some 3)
    ∧ (eraseNode ⟨[1, 2, 3], [some 2, some 1]⟩ 2).iters[1]?
        = some (some 1) := by
  refine ⟨by decide, ?_, ?_⟩
  · have h := (itemlist_erase_iterators ⟨[1, 2, 3], [some 2, some 1]⟩ 2
      (by decide)).1 0 rfl
    simpa [listSucc] using h
  · exact (itemlist_erase_iterators ⟨[1, 2, 3], [some 2, some 1]⟩ 2
      (by decide)).2.1 1 (some 1) rfl (by decide)






end Falcon
